import Mathlib

/-
Verification of the cortex-core command/response protocol subsystem.

The Python sources (src/cortex_protocol.py, src/cortex_db.py,
src/ble_client.py, src/http_server.py, src/config.py) are shallowly
embedded below.  Python `str` values are modelled as `List Char`
(sequences of Unicode scalar values), Python `bytes` as `List Nat`
(each element < 256), wall-clock instants from time.monotonic() as `ℚ`,
and SQLite rows as explicit Lean structures.  Fallible operations
return `Option`.
-/

set_option maxHeartbeats 1000000
set_option maxRecDepth 8000

namespace Cortex

/-- Convert a Lean string literal to the `List Char` model of Python `str`. -/
def strL (s : String) : List Char := s.toList

/-! ## Decimal rendering and parsing

Python renders the chunk counters with `str(int)` (inside the f-string
of `chunk_response`) and parses them back with `int(...)` inside
`ChunkAssembler.feed`.  `natToChars` is decimal rendering of a
nonnegative integer; `pyInt?` is `int(...)` restricted to the forms
this protocol ever produces (an optional sign followed by decimal
digits; Python additionally tolerates surrounding whitespace and
underscore separators, which never occur in canonically rendered
numbers). -/

/-- Little-endian decimal digits of `n`; any `fuel ≥ n` gives the digits
of `n`. -/
def digitsLE : Nat → Nat → List Nat
  | 0, _ => []
  | fuel + 1, n => if n = 0 then [] else n % 10 :: digitsLE fuel (n / 10)

/-- The character for a single decimal digit. -/
def digitChar : Nat → Char
  | 0 => '0' | 1 => '1' | 2 => '2' | 3 => '3' | 4 => '4'
  | 5 => '5' | 6 => '6' | 7 => '7' | 8 => '8' | 9 => '9'
  | _ => '*'

/-- Decimal rendering of a natural number, as `str(n)` does in Python. -/
def natToChars (n : Nat) : List Char :=
  if n = 0 then ['0'] else ((digitsLE n n).reverse.map digitChar)

/-- The numeric value of a decimal digit character, if it is one. -/
def digitVal? (c : Char) : Option Nat :=
  if '0' ≤ c ∧ c ≤ '9' then some (c.toNat - 48) else none

/-- Accumulating parser for a run of decimal digit characters. -/
def parseDigitsAux (acc : Nat) : List Char → Option Nat
  | [] => some acc
  | c :: cs =>
    match digitVal? c with
    | some d => parseDigitsAux (acc * 10 + d) cs
    | none => none

/-- Parse a nonempty all-digit string to its value. -/
def parseDigits : List Char → Option Nat
  | [] => none
  | c :: cs => parseDigitsAux 0 (c :: cs)

/-- Python `int(s)` on the strings this protocol produces: an optional
sign and a nonempty run of decimal digits. -/
def pyInt? : List Char → Option Int
  | [] => none
  | c :: rest =>
    if c = '-' then (parseDigits rest).map (fun n => -(n : Int))
    else if c = '+' then (parseDigits rest).map (fun n => (n : Int))
    else (parseDigits (c :: rest)).map (fun n => (n : Int))

theorem digitsLE_lt_ten : ∀ (fuel n : Nat), ∀ d ∈ digitsLE fuel n, d < 10 := by
  intro fuel
  induction fuel with
  | zero => intro n d hd; simp [digitsLE] at hd
  | succ fuel ih =>
    intro n d hd
    simp only [digitsLE] at hd
    by_cases h0 : n = 0
    · rw [if_pos h0] at hd; simp at hd
    · rw [if_neg h0] at hd
      rcases List.mem_cons.mp hd with h | h
      · subst h; exact Nat.mod_lt n (by norm_num)
      · exact ih (n / 10) d h

theorem digitVal?_digitChar {d : Nat} (hd : d < 10) :
    digitVal? (digitChar d) = some d := by
  interval_cases d <;> decide

theorem digitChar_ne_minus {d : Nat} (hd : d < 10) : digitChar d ≠ '-' := by
  interval_cases d <;> decide

theorem digitChar_ne_plus {d : Nat} (hd : d < 10) : digitChar d ≠ '+' := by
  interval_cases d <;> decide

theorem digitChar_ne_slash {d : Nat} (hd : d < 10) : digitChar d ≠ '/' := by
  interval_cases d <;> decide

theorem digitChar_ne_colon {d : Nat} (hd : d < 10) : digitChar d ≠ ':' := by
  interval_cases d <;> decide

theorem parseDigitsAux_digits {ds : List Nat} (h : ∀ d ∈ ds, d < 10) :
    ∀ acc, parseDigitsAux acc (ds.map digitChar) =
      some (ds.foldl (fun a d => a * 10 + d) acc) := by
  induction ds with
  | nil => intro acc; rfl
  | cons d ds ih =>
    intro acc
    have hd : d < 10 := h d (List.mem_cons_self d ds)
    simp only [List.map_cons, parseDigitsAux, digitVal?_digitChar hd,
      List.foldl_cons]
    exact ih (fun x hx => h x (List.mem_cons_of_mem d hx)) (acc * 10 + d)

theorem foldl_digitsLE_reverse {fuel : Nat} :
    ∀ {n : Nat}, n ≤ fuel → ∀ acc,
      (digitsLE fuel n).reverse.foldl (fun a d => a * 10 + d) acc =
        acc * 10 ^ (digitsLE fuel n).length + n := by
  induction fuel with
  | zero =>
    intro n hn acc
    interval_cases n
    simp [digitsLE]
  | succ fuel ih =>
    intro n hn acc
    by_cases h0 : n = 0
    · simp [digitsLE, h0]
    · have hstep : n / 10 ≤ fuel := by
        have := Nat.div_lt_self (Nat.pos_of_ne_zero h0) (by norm_num : 1 < 10)
        omega
      simp only [digitsLE, if_neg h0, List.reverse_cons, List.foldl_append,
        List.foldl_cons, List.foldl_nil, List.length_cons]
      rw [ih hstep acc]
      have hmod : 10 * (n / 10) + n % 10 = n := Nat.div_add_mod n 10
      calc (acc * 10 ^ (digitsLE fuel (n / 10)).length + n / 10) * 10 + n % 10
          = acc * (10 ^ (digitsLE fuel (n / 10)).length * 10) +
              (10 * (n / 10) + n % 10) := by ring
        _ = acc * 10 ^ ((digitsLE fuel (n / 10)).length + 1) + n := by
              rw [hmod, pow_succ]

theorem parseDigits_natToChars (n : Nat) :
    parseDigits (natToChars n) = some n := by
  by_cases h0 : n = 0
  · subst h0; decide
  · unfold natToChars
    rw [if_neg h0]
    have hdigits : ∀ x ∈ (digitsLE n n).reverse, x < 10 :=
      fun x hx => digitsLE_lt_ten n n x (List.mem_reverse.mp hx)
    have hfold := foldl_digitsLE_reverse (Nat.le_refl n) 0
    have hrev : (digitsLE n n).reverse ≠ [] := by
      cases n with
      | zero => exact absurd rfl h0
      | succ m => simp [digitsLE]
    obtain ⟨d, ds, hds⟩ := List.exists_cons_of_ne_nil hrev
    rw [hds] at hdigits hfold ⊢
    simp only [List.map_cons, parseDigits]
    have hparse := parseDigitsAux_digits hdigits 0
    simp only [List.map_cons] at hparse
    rw [hparse, hfold]
    simp

theorem natToChars_digits (n : Nat) :
    ∀ c ∈ natToChars n, ∃ d, d < 10 ∧ c = digitChar d := by
  intro c hc
  unfold natToChars at hc
  by_cases h0 : n = 0
  · rw [if_pos h0] at hc
    exact ⟨0, by norm_num, by simpa [digitChar] using hc⟩
  · rw [if_neg h0] at hc
    obtain ⟨d, hd, rfl⟩ := List.mem_map.mp hc
    exact ⟨d, digitsLE_lt_ten n n d (List.mem_reverse.mp hd), rfl⟩

theorem natToChars_ne_nil (n : Nat) : natToChars n ≠ [] := by
  unfold natToChars
  by_cases h0 : n = 0
  · simp [h0]
  · rw [if_neg h0]
    cases n with
    | zero => exact absurd rfl h0
    | succ m => simp [digitsLE]

theorem pyInt?_natToChars (n : Nat) : pyInt? (natToChars n) = some (n : Int) := by
  obtain ⟨c, cs, hcs⟩ := List.exists_cons_of_ne_nil (natToChars_ne_nil n)
  have hc : ∃ d, d < 10 ∧ c = digitChar d := by
    apply natToChars_digits
    rw [hcs]; exact List.mem_cons_self c cs
  obtain ⟨d, hd, rfl⟩ := hc
  have hparse := parseDigits_natToChars n
  rw [hcs] at hparse ⊢
  simp only [pyInt?, if_neg (digitChar_ne_minus hd), if_neg (digitChar_ne_plus hd)]
  simp [hparse]

/-! ## UTF-8 (Python `str.encode("utf-8")` and `bytes.decode("utf-8", errors="replace")`)

`chunk_response` slices the UTF-8 encoding of a message into byte
windows and decodes each window separately with `errors="replace"`;
CPython replaces each maximal invalid subpart with one U+FFFD
(a truncated but otherwise well-formed multi-byte prefix is consumed
as a whole and yields a single U+FFFD). -/

/-- UTF-8 encoding of one Unicode scalar value. -/
def utf8EncodeChar (c : Char) : List Nat :=
  let n := c.toNat
  if n < 0x80 then [n]
  else if n < 0x800 then
    [0xC0 + n / 64, 0x80 + n % 64]
  else if n < 0x10000 then
    [0xE0 + n / 4096, 0x80 + n / 64 % 64, 0x80 + n % 64]
  else
    [0xF0 + n / 262144, 0x80 + n / 4096 % 64, 0x80 + n / 64 % 64, 0x80 + n % 64]

/-- UTF-8 encoding of a string, as `s.encode("utf-8")`. -/
def utf8Encode (s : List Char) : List Nat :=
  (s.map utf8EncodeChar).flatten

/-- The U+FFFD replacement character. -/
def replChar : Char := '�'

/-- Is `b` a UTF-8 continuation byte (0x80–0xBF)? -/
def isCont (b : Nat) : Bool := 0x80 ≤ b && b ≤ 0xBF

/-- Handle one multi-byte (or invalid) unit starting at lead byte
`b ≥ 0x80` with following bytes `bs`, as CPython's `errors="replace"`
decoder does: the decoded characters for this unit and the bytes not
yet consumed (each maximal invalid subpart gives one U+FFFD; a valid
but truncated prefix at end of input also gives one U+FFFD). -/
def utf8StepMulti (b : Nat) (bs : List Nat) : List Char × List Nat :=
  if 0xC2 ≤ b && b ≤ 0xDF then
    match bs with
    | b1 :: bs1 =>
      if isCont b1 then
        ([Char.ofNat ((b - 0xC0) * 64 + (b1 - 0x80))], bs1)
      else ([replChar], b1 :: bs1)
    | [] => ([replChar], [])
  else if b = 0xE0 then
    match bs with
    | b1 :: b2 :: bs2 =>
      if 0xA0 ≤ b1 && b1 ≤ 0xBF then
        if isCont b2 then
          ([Char.ofNat ((b1 - 0x80) * 64 + (b2 - 0x80))], bs2)
        else ([replChar], b2 :: bs2)
      else ([replChar], b1 :: b2 :: bs2)
    | [b1] =>
      if 0xA0 ≤ b1 && b1 ≤ 0xBF then ([replChar], []) else ([replChar, replChar], [])
    | [] => ([replChar], [])
  else if 0xE1 ≤ b && b ≤ 0xEF && b ≠ 0xED then
    match bs with
    | b1 :: b2 :: bs2 =>
      if isCont b1 then
        if isCont b2 then
          ([Char.ofNat ((b - 0xE0) * 4096 + (b1 - 0x80) * 64 + (b2 - 0x80))], bs2)
        else ([replChar], b2 :: bs2)
      else ([replChar], b1 :: b2 :: bs2)
    | [b1] => if isCont b1 then ([replChar], []) else ([replChar, replChar], [])
    | [] => ([replChar], [])
  else if b = 0xED then
    match bs with
    | b1 :: b2 :: bs2 =>
      if 0x80 ≤ b1 && b1 ≤ 0x9F then
        if isCont b2 then
          ([Char.ofNat (0xD000 + (b1 - 0x80) * 64 + (b2 - 0x80))], bs2)
        else ([replChar], b2 :: bs2)
      else ([replChar], b1 :: b2 :: bs2)
    | [b1] =>
      if 0x80 ≤ b1 && b1 ≤ 0x9F then ([replChar], []) else ([replChar, replChar], [])
    | [] => ([replChar], [])
  else if 0xF0 ≤ b && b ≤ 0xF4 then
    let lo : Nat := if b = 0xF0 then 0x90 else 0x80
    let hi : Nat := if b = 0xF4 then 0x8F else 0xBF
    match bs with
    | b1 :: b2 :: b3 :: bs3 =>
      if lo ≤ b1 && b1 ≤ hi then
        if isCont b2 then
          if isCont b3 then
            ([Char.ofNat ((b - 0xF0) * 262144 + (b1 - 0x80) * 4096 +
                (b2 - 0x80) * 64 + (b3 - 0x80))], bs3)
          else ([replChar], b3 :: bs3)
        else ([replChar], b2 :: b3 :: bs3)
      else ([replChar], b1 :: b2 :: b3 :: bs3)
    | [b1, b2] =>
      if lo ≤ b1 && b1 ≤ hi then
        if isCont b2 then ([replChar], []) else ([replChar, replChar], [])
      else ([replChar, replChar, replChar], [])
    | [b1] =>
      if lo ≤ b1 && b1 ≤ hi then ([replChar], []) else ([replChar, replChar], [])
    | [] => ([replChar], [])
  else ([replChar], bs)

/-- CPython's UTF-8 decoder with `errors="replace"`.  `fuel` bounds
recursion; any `fuel ≥ length` is exact since every step consumes at
least the lead byte. -/
def utf8DecodeAux : Nat → List Nat → List Char
  | 0, _ => []
  | _, [] => []
  | fuel + 1, b :: bs =>
    if b < 0x80 then Char.ofNat b :: utf8DecodeAux fuel bs
    else
      (utf8StepMulti b bs).1 ++ utf8DecodeAux fuel (utf8StepMulti b bs).2

/-- `bytes.decode("utf-8", errors="replace")`. -/
def utf8DecodeReplace (bs : List Nat) : List Char :=
  utf8DecodeAux bs.length bs

theorem utf8EncodeChar_ascii {c : Char} (h : c.toNat < 128) :
    utf8EncodeChar c = [c.toNat] := by
  unfold utf8EncodeChar
  rw [if_pos h]

theorem utf8Encode_ascii {s : List Char} (h : ∀ c ∈ s, c.toNat < 128) :
    utf8Encode s = s.map Char.toNat := by
  induction s with
  | nil => rfl
  | cons c cs ih =>
    have hc : c.toNat < 128 := h c (List.mem_cons_self c cs)
    have hcs : ∀ x ∈ cs, x.toNat < 128 :=
      fun x hx => h x (List.mem_cons_of_mem c hx)
    simp only [utf8Encode, List.map_cons, List.flatten_cons,
      utf8EncodeChar_ascii hc, List.cons_append, List.nil_append]
    simpa [utf8Encode] using ih hcs

theorem utf8DecodeAux_ascii :
    ∀ (fuel : Nat) (bs : List Nat), bs.length ≤ fuel → (∀ b ∈ bs, b < 128) →
      utf8DecodeAux fuel bs = bs.map Char.ofNat := by
  intro fuel
  induction fuel with
  | zero =>
    intro bs hlen _
    cases bs with
    | nil => rfl
    | cons b bs => simp at hlen
  | succ fuel ih =>
    intro bs hlen hb
    cases bs with
    | nil => rfl
    | cons b bs =>
      have hb0 : b < 128 := hb b (List.mem_cons_self b bs)
      unfold utf8DecodeAux
      rw [if_pos hb0]
      simp only [List.map_cons]
      congr 1
      refine ih bs ?_ (fun x hx => hb x (List.mem_cons_of_mem b hx))
      simp only [List.length_cons] at hlen
      omega

theorem utf8DecodeReplace_ascii {bs : List Nat} (h : ∀ b ∈ bs, b < 128) :
    utf8DecodeReplace bs = bs.map Char.ofNat := by
  exact utf8DecodeAux_ascii bs.length bs (Nat.le_refl _) h

/-! ## Byte-window slicing

`chunk_response` iterates `for i in range(0, len(encoded), sz)` and
takes `encoded[i : i + sz]`. -/

/-- Consecutive windows of size `sz` of a list; `fuel` bounds recursion
(any `fuel ≥ length` is exact when `sz ≥ 1`). -/
def sliceAux (sz : Nat) : Nat → List α → List (List α)
  | 0, _ => []
  | _, [] => []
  | fuel + 1, xs => xs.take sz :: sliceAux sz fuel (xs.drop sz)

/-- The byte windows `encoded[0:sz], encoded[sz:2*sz], …` (requires
`sz ≥ 1`; Python's `range` would reject a zero step). -/
def sliceList (sz : Nat) (xs : List α) : List (List α) :=
  sliceAux sz xs.length xs

theorem sliceAux_flatten {sz : Nat} (hsz : 1 ≤ sz) :
    ∀ (fuel : Nat) (xs : List α), xs.length ≤ fuel →
      (sliceAux sz fuel xs).flatten = xs := by
  intro fuel
  induction fuel with
  | zero =>
    intro xs hlen
    cases xs with
    | nil => rfl
    | cons x xs => simp at hlen
  | succ fuel ih =>
    intro xs hlen
    cases xs with
    | nil => rfl
    | cons x xs =>
      simp only [sliceAux, List.flatten_cons]
      rw [ih ((x :: xs).drop sz) ?_]
      · exact List.take_append_drop sz (x :: xs)
      · simp only [List.length_drop, List.length_cons]
        simp only [List.length_cons] at hlen
        omega

theorem sliceList_flatten {sz : Nat} (hsz : 1 ≤ sz) (xs : List α) :
    (sliceList sz xs).flatten = xs :=
  sliceAux_flatten hsz xs.length xs (Nat.le_refl _)

theorem sliceAux_mem {sz : Nat} :
    ∀ (fuel : Nat) (xs : List α) (s : List α), s ∈ sliceAux sz fuel xs →
      ∀ a ∈ s, a ∈ xs := by
  intro fuel
  induction fuel with
  | zero => intro xs s hs; simp [sliceAux] at hs
  | succ fuel ih =>
    intro xs s hs a ha
    cases xs with
    | nil => simp [sliceAux] at hs
    | cons x xs =>
      simp only [sliceAux] at hs
      rcases List.mem_cons.mp hs with h | h
      · subst h
        exact List.mem_of_mem_take ha
      · exact List.mem_of_mem_drop (ih _ s h a ha)

theorem sliceList_mem {sz : Nat} {xs s : List α} (hs : s ∈ sliceList sz xs) :
    ∀ a ∈ s, a ∈ xs :=
  sliceAux_mem xs.length xs s hs

theorem sliceList_ne_nil {sz : Nat} {xs : List α} (hxs : xs ≠ []) :
    sliceList sz xs ≠ [] := by
  unfold sliceList
  cases xs with
  | nil => exact absurd rfl hxs
  | cons x xs => simp [sliceAux]

/-! ## ChunkAssembler (src/cortex_protocol.py lines 18–76)

State fields mirror `__init__`; `feed` takes the current
`time.monotonic()` instant as an explicit `now : ℚ` argument.  Python's
`self._started and …` truthiness test is `started ≠ 0 ∧ …`. -/

/-- The mutable state of `ChunkAssembler`. -/
structure AsmState where
  chunks : List (Option (List Char))
  expected : Int
  received : Finset Int
  started : ℚ
  timeout : ℚ
  deriving DecidableEq

/-- `ChunkAssembler.reset`. -/
def asmReset (st : AsmState) : AsmState :=
  { st with chunks := [], expected := 0, received := ∅, started := 0 }

/-- `ChunkAssembler()` with the default 30 s timeout. -/
def asmInit : AsmState :=
  { chunks := [], expected := 0, received := ∅, started := 0, timeout := 30 }

/-- `ChunkAssembler.is_chunk`. -/
def is_chunk (msg : List Char) : Bool :=
  msg.take 6 = strL "CHUNK:"

/-- The parsing prelude of `feed`: strip `CHUNK:`, split at the first
`/`, parse `seq`, split the remainder at the first `:`, parse `total`;
`none` on the `ValueError` path. -/
def parseChunk (raw : List Char) : Option (Int × Int × List Char) :=
  let pfx := raw.drop 6
  match List.findIdx? (· == '/') pfx with
  | none => none
  | some si =>
    match pyInt? (pfx.take si) with
    | none => none
    | some seq =>
      let rest := pfx.drop (si + 1)
      match List.findIdx? (· == ':') rest with
      | none => none
      | some ci =>
        match pyInt? (rest.take ci) with
        | none => none
        | some total => some (seq, total, rest.drop (ci + 1))

/-- `ChunkAssembler.feed`.  Returns the reassembled message (if this
chunk completes one) and the successor state.  `List.set` is exercised
only in bounds (`1 ≤ seq ≤ total = expected = chunks.length`), matching
Python's `self._chunks[seq - 1] = data`; joining skips `none` slots,
which are all filled whenever the completion guard holds. -/
def feed (st : AsmState) (now : ℚ) (raw : List Char) :
    Option (List Char) × AsmState :=
  match parseChunk raw with
  | none => (none, asmReset st)
  | some (seq, total, data) =>
    let st1 :=
      if total ≠ st.expected ∨ (st.started ≠ 0 ∧ now - st.started > st.timeout)
      then asmReset st else st
    let st2 :=
      if st1.chunks = [] then
        { st1 with chunks := List.replicate total.toNat none,
                   expected := total, started := now }
      else st1
    let st3 :=
      if 1 ≤ seq ∧ seq ≤ total then
        { st2 with chunks := st2.chunks.set (seq - 1).toNat (some data),
                   received := insert seq st2.received }
      else st2
    if (st3.received.card : Int) = st3.expected then
      (some ((st3.chunks.map (fun o => o.getD [])).flatten), asmReset st3)
    else (none, st3)

/-- Feed a list of (instant, message) pairs in order, collecting each
call's return value. -/
def feedAll (st : AsmState) : List (ℚ × List Char) →
    List (Option (List Char)) × AsmState
  | [] => ([], st)
  | (t, msg) :: rest =>
    let r := feed st t msg
    let rs := feedAll r.2 rest
    (r.1 :: rs.1, rs.2)

/-- The canonical chunk line `CHUNK:<seq>/<total>:<data>` as built by
the f-string in `chunk_response` (and as described by the spec). -/
def mkChunk (seq total : Nat) (data : List Char) : List Char :=
  strL "CHUNK:" ++ natToChars seq ++ '/' :: natToChars total ++ ':' :: data

/-- `CortexProtocol.chunk_response` (src/cortex_protocol.py lines
122–136).  `enumChunksFrom` renders `enumerate(parts)`. -/
def enumChunksFrom (total : Nat) : Nat → List (List Char) → List (List Char)
  | _, [] => []
  | i, p :: ps => mkChunk (i + 1) total p :: enumChunksFrom total (i + 1) ps

/-- `CortexProtocol.chunk_response(msg, max_size)`. -/
def chunk_response (msg : List Char) (max_size : Nat) : List (List Char) :=
  let encoded := utf8Encode msg
  if encoded.length ≤ max_size then [msg]
  else
    let chunk_data_size := max_size - 16
    let parts := (sliceList chunk_data_size encoded).map utf8DecodeReplace
    enumChunksFrom parts.length 0 parts

theorem findIdx?_sep (A B : List Char) (sep : Char)
    (h : ∀ c ∈ A, (c == sep) = false) :
    List.findIdx? (· == sep) (A ++ sep :: B) = some A.length := by
  rw [List.findIdx?_append, List.findIdx?_eq_none_iff.mpr h]
  simp [List.findIdx?_cons]

theorem drop_sep (A B : List α) (sep : α) :
    (A ++ sep :: B).drop (A.length + 1) = B := by
  rw [List.append_cons]
  exact List.drop_left' (by simp)

theorem parseChunk_mkChunk (seq total : Nat) (data : List Char) :
    parseChunk (mkChunk seq total data) =
      some ((seq : Int), (total : Int), data) := by
  have hdrop : (mkChunk seq total data).drop 6 =
      natToChars seq ++ '/' :: (natToChars total ++ ':' :: data) := by
    unfold mkChunk strL
    rw [show ("CHUNK:".toList ++ natToChars seq ++
        '/' :: natToChars total ++ ':' :: data) = "CHUNK:".toList ++
        (natToChars seq ++ '/' :: (natToChars total ++ ':' :: data)) by simp]
    exact List.drop_left' (by decide)
  have hnoslash : ∀ c ∈ natToChars seq, (c == '/') = false := by
    intro c hc
    obtain ⟨d, hd, rfl⟩ := natToChars_digits seq c hc
    simpa using digitChar_ne_slash hd
  have hnocolon : ∀ c ∈ natToChars total, (c == ':') = false := by
    intro c hc
    obtain ⟨d, hd, rfl⟩ := natToChars_digits total c hc
    simpa using digitChar_ne_colon hd
  simp only [parseChunk]
  rw [hdrop]
  rw [findIdx?_sep _ _ _ hnoslash]
  dsimp only
  rw [List.take_left, pyInt?_natToChars]
  dsimp only
  rw [drop_sep, findIdx?_sep _ _ _ hnocolon]
  dsimp only
  rw [List.take_left, pyInt?_natToChars]
  dsimp only
  rw [drop_sep]

/-! ## Assembler correctness infrastructure

`accState N S data t0` is the assembler state in the middle of
receiving an `N`-chunk sequence whose distinct received sequence
numbers form `S`, where chunk `i` carries `data i` and the first chunk
arrived at instant `t0`. -/

/-- The slot array of a partially received `N`-chunk sequence. -/
def slots (N : Nat) (S : Finset Int) (data : Nat → List Char) :
    List (Option (List Char)) :=
  (List.range N).map
    (fun k => if ((k + 1 : Nat) : Int) ∈ S then some (data (k + 1)) else none)

/-- Mid-reassembly assembler state. -/
def accState (N : Nat) (S : Finset Int) (data : Nat → List Char) (t0 : ℚ) :
    AsmState :=
  { chunks := slots N S data, expected := (N : Int), received := S,
    started := t0, timeout := 30 }

/-- `data 1 ++ data 2 ++ … ++ data N`. -/
def concatData (N : Nat) (data : Nat → List Char) : List Char :=
  ((List.range N).map (fun k => data (k + 1))).flatten

theorem slots_length (N : Nat) (S : Finset Int) (data : Nat → List Char) :
    (slots N S data).length = N := by
  simp [slots]

theorem slots_ne_nil {N : Nat} (hN : 1 ≤ N) (S : Finset Int)
    (data : Nat → List Char) : slots N S data ≠ [] := by
  intro h
  have := slots_length N S data
  rw [h] at this
  simp at this
  omega

theorem slots_empty (N : Nat) (data : Nat → List Char) :
    List.replicate N none = slots N ∅ data := by
  unfold slots
  symm
  apply List.eq_replicate_iff.mpr
  refine ⟨by simp, ?_⟩
  intro o ho
  obtain ⟨k, hk, rfl⟩ := List.mem_map.mp ho
  simp

theorem slots_set {N j : Nat} (hj1 : 1 ≤ j) (hjN : j ≤ N) (S : Finset Int)
    (data : Nat → List Char) :
    (slots N S data).set (j - 1) (some (data j)) =
      slots N (insert (j : Int) S) data := by
  apply List.ext_getElem
  · simp [slots]
  · intro i h1 h2
    have hiN : i < N := by
      have := slots_length N S data
      simp only [List.length_set] at h1
      omega
    rw [List.getElem_set]
    by_cases hij : j - 1 = i
    · rw [if_pos hij]
      have hji : i + 1 = j := by omega
      simp only [slots, List.getElem_map, List.getElem_range]
      rw [if_pos (by rw [hji]; exact Finset.mem_insert_self _ _), hji]
    · rw [if_neg hij]
      simp only [slots, List.getElem_map, List.getElem_range]
      have hne : ((i + 1 : Nat) : Int) ≠ (j : Int) := by
        intro h
        have : i + 1 = j := by exact_mod_cast h
        omega
      by_cases hmem : ((i + 1 : Nat) : Int) ∈ S
      · rw [if_pos hmem, if_pos (Finset.mem_insert_of_mem hmem)]
      · rw [if_neg hmem, if_neg ?_]
        rw [Finset.mem_insert]
        push_neg
        exact ⟨hne, hmem⟩

theorem slots_full_flatten (N : Nat) (data : Nat → List Char) :
    ((slots N (Finset.Icc 1 (N : Int)) data).map (fun o => o.getD [])).flatten =
      concatData N data := by
  unfold slots concatData
  congr 1
  rw [List.map_map]
  apply List.map_congr_left
  intro k hk
  have hkN : k < N := List.mem_range.mp hk
  have hmem : ((k + 1 : Nat) : Int) ∈ Finset.Icc 1 (N : Int) := by
    rw [Finset.mem_Icc]
    constructor <;> [exact_mod_cast Nat.le_add_left 1 k; exact_mod_cast hkN]
  simp only [Function.comp_apply, if_pos hmem, Option.getD_some]

theorem card_Icc_one (N : Nat) : (Finset.Icc 1 (N : Int)).card = N := by
  rw [Int.card_Icc]
  simp

/-- One `feed` of the canonical chunk `j/N` onto a mid-reassembly state:
either completes the message or records the slot. -/
theorem feed_acc {N j : Nat} (hN : 1 ≤ N) (hj1 : 1 ≤ j) (hjN : j ≤ N)
    (S : Finset Int) (data : Nat → List Char) (t0 t : ℚ)
    (hS : S ⊆ Finset.Icc 1 (N : Int))
    (ht : ¬(t0 ≠ 0 ∧ t - t0 > 30)) :
    feed (accState N S data t0) t (mkChunk j N (data j)) =
      if insert ((j : Nat) : Int) S = Finset.Icc 1 (N : Int)
      then (some (concatData N data), asmInit)
      else (none, accState N (insert (j : Int) S) data t0) := by
  have hidx : (((j : Nat) : Int) - 1).toNat = j - 1 := by omega
  have hsub : insert ((j : Nat) : Int) S ⊆ Finset.Icc 1 (N : Int) := by
    rw [Finset.insert_subset_iff]
    refine ⟨?_, hS⟩
    rw [Finset.mem_Icc]
    constructor <;> [exact_mod_cast hj1; exact_mod_cast hjN]
  have hg : ¬(((N : Nat) : Int) ≠ ((N : Nat) : Int) ∨ (t0 ≠ 0 ∧ t - t0 > 30)) := by
    rintro (h | h)
    · exact h rfl
    · exact ht h
  have hnil : ¬(slots N S data = []) := slots_ne_nil hN S data
  have hseq : 1 ≤ ((j : Nat) : Int) ∧ ((j : Nat) : Int) ≤ ((N : Nat) : Int) :=
    ⟨by exact_mod_cast hj1, by exact_mod_cast hjN⟩
  unfold feed
  rw [parseChunk_mkChunk]
  dsimp only [accState]
  simp only [if_neg hg, if_neg hnil, if_pos hseq, hidx,
    slots_set hj1 hjN S data]
  by_cases hfull : insert ((j : Nat) : Int) S = Finset.Icc 1 (N : Int)
  · have hcard : (((insert ((j : Nat) : Int) S).card : Nat) : Int) =
        ((N : Nat) : Int) := by
      rw [hfull, card_Icc_one]
    rw [if_pos hcard, if_pos hfull, hfull, slots_full_flatten]
    rfl
  · have hcard : ¬((((insert ((j : Nat) : Int) S).card : Nat) : Int) =
        ((N : Nat) : Int)) := by
      intro hc
      have hc2 : (insert ((j : Nat) : Int) S).card = N := by exact_mod_cast hc
      exact hfull (Finset.eq_of_subset_of_card_le hsub
        (by rw [card_Icc_one, hc2]))
    rw [if_neg hcard, if_neg hfull]

/-- The first `feed` of a canonical chunk `j/N` onto a fresh assembler. -/
theorem feed_init {N j : Nat} (hN : 1 ≤ N) (hj1 : 1 ≤ j) (hjN : j ≤ N)
    (data : Nat → List Char) (t : ℚ) :
    feed asmInit t (mkChunk j N (data j)) =
      if insert ((j : Nat) : Int) (∅ : Finset Int) = Finset.Icc 1 (N : Int)
      then (some (concatData N data), asmInit)
      else (none, accState N (insert ((j : Nat) : Int) ∅) data t) := by
  have hidx : (((j : Nat) : Int) - 1).toNat = j - 1 := by omega
  have hg : (((N : Nat) : Int) ≠ (0 : Int) ∨ ((0 : ℚ) ≠ 0 ∧ t - 0 > 30)) := by
    left
    intro h
    have : N = 0 := by exact_mod_cast h
    omega
  have hseq : 1 ≤ ((j : Nat) : Int) ∧ ((j : Nat) : Int) ≤ ((N : Nat) : Int) :=
    ⟨by exact_mod_cast hj1, by exact_mod_cast hjN⟩
  have hrepl : List.replicate (((N : Nat) : Int)).toNat (none : Option (List Char)) =
      slots N ∅ data := by
    rw [show (((N : Nat) : Int)).toNat = N by omega]
    exact slots_empty N data
  have hsub : insert ((j : Nat) : Int) (∅ : Finset Int) ⊆
      Finset.Icc 1 (N : Int) := by
    rw [Finset.insert_subset_iff]
    refine ⟨?_, Finset.empty_subset _⟩
    rw [Finset.mem_Icc]
    constructor <;> [exact_mod_cast hj1; exact_mod_cast hjN]
  have hnl : ([] : List (Option (List Char))) = [] := rfl
  unfold feed
  rw [parseChunk_mkChunk]
  dsimp only [asmInit, asmReset]
  simp only [if_pos hg, if_pos hnl, if_true, hrepl, if_pos hseq, hidx,
    slots_set hj1 hjN ∅ data]
  by_cases hfull : insert ((j : Nat) : Int) (∅ : Finset Int) =
      Finset.Icc 1 (N : Int)
  · have hcard : (((insert ((j : Nat) : Int) (∅ : Finset Int)).card : Nat) : Int) =
        ((N : Nat) : Int) := by
      rw [hfull, card_Icc_one]
    rw [if_pos hcard, if_pos hfull, hfull, slots_full_flatten]
  · have hcard : ¬((((insert ((j : Nat) : Int) (∅ : Finset Int)).card : Nat) : Int) =
        ((N : Nat) : Int)) := by
      intro hc
      have hc2 : (insert ((j : Nat) : Int) (∅ : Finset Int)).card = N := by
        exact_mod_cast hc
      exact hfull (Finset.eq_of_subset_of_card_le hsub
        (by rw [card_Icc_one, hc2]))
    rw [if_neg hcard, if_neg hfull]
    rfl

/-- Feeding a tail of canonical chunks onto a mid-reassembly state:
if the set only becomes complete with the very last message, every feed
but the last returns nothing and the last returns the concatenation. -/
theorem feedAll_acc (N : Nat) (data : Nat → List Char) (t0 : ℚ) :
    ∀ (l : List (Nat × ℚ)) (S : Finset Int), 1 ≤ N → l ≠ [] →
      (∀ p ∈ l, 1 ≤ p.1 ∧ p.1 ≤ N) →
      (∀ p ∈ l, p.2 - t0 ≤ 30) →
      S ⊆ Finset.Icc 1 (N : Int) →
      (∀ k, k < l.length →
        S ∪ ((l.take k).map (fun p => ((p.1 : Nat) : Int))).toFinset ≠
          Finset.Icc 1 (N : Int)) →
      S ∪ (l.map (fun p => ((p.1 : Nat) : Int))).toFinset =
        Finset.Icc 1 (N : Int) →
      feedAll (accState N S data t0)
          (l.map (fun p => (p.2, mkChunk p.1 N (data p.1)))) =
        (List.replicate (l.length - 1) none ++ [some (concatData N data)],
          asmInit) := by
  intro l
  induction l with
  | nil => intro S _ hne; exact absurd rfl hne
  | cons p rest ih =>
    intro S hN _ hmem htime hS hpre hfull
    obtain ⟨j, t⟩ := p
    have hj := hmem (j, t) (List.mem_cons_self _ _)
    have h30 : t - t0 ≤ 30 := htime (j, t) (List.mem_cons_self _ _)
    have ht : ¬(t0 ≠ 0 ∧ t - t0 > 30) := by
      rintro ⟨-, hgt⟩
      linarith
    have hins : S ∪ ([((j : Nat) : Int)]).toFinset =
        insert ((j : Nat) : Int) S := by
      ext x
      simp [or_comm]
    simp only [List.map_cons, feedAll]
    rw [feed_acc hN hj.1 hj.2 S data t0 t hS ht]
    by_cases hlast : rest = []
    · subst hlast
      have : insert ((j : Nat) : Int) S = Finset.Icc 1 (N : Int) := by
        rw [← hins]
        simpa using hfull
      rw [if_pos this]
      simp [feedAll]
    · have hnot : insert ((j : Nat) : Int) S ≠ Finset.Icc 1 (N : Int) := by
        rw [← hins]
        have h1 : 1 < ((j, t) :: rest).length := by
          cases rest with
          | nil => exact absurd rfl hlast
          | cons q qs => simp
        have := hpre 1 h1
        simpa using this
      rw [if_neg hnot]
      have ihres := ih (insert ((j : Nat) : Int) S) hN hlast
        (fun q hq => hmem q (List.mem_cons_of_mem _ hq))
        (fun q hq => htime q (List.mem_cons_of_mem _ hq))
        (by
          rw [Finset.insert_subset_iff]
          refine ⟨?_, hS⟩
          rw [Finset.mem_Icc]
          exact ⟨by exact_mod_cast hj.1, by exact_mod_cast hj.2⟩)
        (by
          intro k hk
          have hk1 : k + 1 < ((j, t) :: rest).length := by simpa using hk
          have := hpre (k + 1) hk1
          simp only [List.take_succ_cons, List.map_cons, List.toFinset_cons] at this
          rw [Finset.union_insert, ← Finset.insert_union] at this
          exact this)
        (by
          have := hfull
          simp only [List.map_cons, List.toFinset_cons] at this
          rw [Finset.union_insert, ← Finset.insert_union] at this
          exact this)
      rw [ihres]
      have hlen : rest.length - 1 + 1 = rest.length := by
        cases rest with
        | nil => exact absurd rfl hlast
        | cons q qs => simp
      have hcons : (none : Option (List Char)) ::
          (List.replicate (rest.length - 1) none ++ [some (concatData N data)]) =
          List.replicate rest.length (none : Option (List Char)) ++
            [some (concatData N data)] := by
        rw [← List.cons_append, ← List.replicate_succ, hlen]
      simp only [List.length_cons, Nat.add_sub_cancel]
      rw [← hcons]

/-- Feeding a fresh assembler a nonempty sequence of canonical chunks
`CHUNK:j/N:data j` (any order, duplicates allowed, all within the
timeout window of the first) whose sequence numbers only cover
`{1, …, N}` at the very last message: every call but the last returns
nothing, the last returns `data 1 ++ … ++ data N`, and the assembler
is reset afterwards. -/
theorem feedAll_covers (N j0 : Nat) (t0 : ℚ) (rest : List (Nat × ℚ))
    (data : Nat → List Char) (hN : 1 ≤ N)
    (hmem : ∀ p ∈ (j0, t0) :: rest, 1 ≤ p.1 ∧ p.1 ≤ N)
    (htime : ∀ p ∈ (j0, t0) :: rest, p.2 - t0 ≤ 30)
    (hpre : ∀ k, k < ((j0, t0) :: rest).length →
      ((((j0, t0) :: rest).take k).map (fun p => ((p.1 : Nat) : Int))).toFinset ≠
        Finset.Icc 1 (N : Int))
    (hfull : (((j0, t0) :: rest).map (fun p => ((p.1 : Nat) : Int))).toFinset =
      Finset.Icc 1 (N : Int)) :
    feedAll asmInit
        (((j0, t0) :: rest).map (fun p => (p.2, mkChunk p.1 N (data p.1)))) =
      (List.replicate rest.length none ++ [some (concatData N data)], asmInit) := by
  have hj := hmem (j0, t0) (List.mem_cons_self _ _)
  simp only [List.map_cons, feedAll]
  rw [feed_init hN hj.1 hj.2 data t0]
  by_cases hlast : rest = []
  · subst hlast
    have hone : insert ((j0 : Nat) : Int) (∅ : Finset Int) =
        Finset.Icc 1 (N : Int) := by
      have := hfull
      simp only [List.map_cons, List.map_nil, List.toFinset_cons,
        List.toFinset_nil] at this
      exact this
    rw [if_pos hone]
    simp [feedAll]
  · have hnot : insert ((j0 : Nat) : Int) (∅ : Finset Int) ≠
        Finset.Icc 1 (N : Int) := by
      have h1 : 1 < ((j0, t0) :: rest).length := by
        cases rest with
        | nil => exact absurd rfl hlast
        | cons q qs => simp
      have := hpre 1 h1
      simpa using this
    rw [if_neg hnot]
    have ihres := feedAll_acc N data t0 rest (insert ((j0 : Nat) : Int) ∅)
      hN hlast
      (fun q hq => hmem q (List.mem_cons_of_mem _ hq))
      (fun q hq => htime q (List.mem_cons_of_mem _ hq))
      (by
        rw [Finset.insert_subset_iff]
        refine ⟨?_, Finset.empty_subset _⟩
        rw [Finset.mem_Icc]
        exact ⟨by exact_mod_cast hj.1, by exact_mod_cast hj.2⟩)
      (by
        intro k hk
        have hk1 : k + 1 < ((j0, t0) :: rest).length := by simpa using hk
        have := hpre (k + 1) hk1
        simp only [List.take_succ_cons, List.map_cons, List.toFinset_cons] at this
        rw [show (insert ((j0 : Nat) : Int) ∅ ∪
            ((rest.take k).map (fun p => ((p.1 : Nat) : Int))).toFinset) =
            insert ((j0 : Nat) : Int)
              (((rest.take k).map (fun p => ((p.1 : Nat) : Int))).toFinset) by
          rw [Finset.insert_union, Finset.empty_union]]
        exact this)
      (by
        have := hfull
        simp only [List.map_cons, List.toFinset_cons] at this
        rw [show (insert ((j0 : Nat) : Int) ∅ ∪
            (rest.map (fun p => ((p.1 : Nat) : Int))).toFinset) =
            insert ((j0 : Nat) : Int)
              ((rest.map (fun p => ((p.1 : Nat) : Int))).toFinset) by
          rw [Finset.insert_union, Finset.empty_union]]
        exact this)
    rw [ihres]
    have hlen : rest.length - 1 + 1 = rest.length := by
      cases rest with
      | nil => exact absurd rfl hlast
      | cons q qs => simp
    have hcons : (none : Option (List Char)) ::
        (List.replicate (rest.length - 1) none ++ [some (concatData N data)]) =
        List.replicate rest.length (none : Option (List Char)) ++
          [some (concatData N data)] := by
      rw [← List.cons_append, ← List.replicate_succ, hlen]
    rw [← hcons]

/-- C2 (corrected).  For every `N ≥ 1` and every sequence of valid
chunk messages `CHUNK:i/N:data_i` presented to a fresh assembler — in
any order, duplicates allowed, all within the 30-second window of the
first chunk — such that the N-th distinct sequence number arrives
exactly on the last message, `feed` returns the concatenation
`data_1 ++ … ++ data_N` exactly on that completing input, returns
nothing on all earlier inputs, and resets its state.  (The original
claim's "returns it exactly once" over an arbitrary stream fails when
chunks are re-sent after completion, since the assembler resets and
starts over: see the counterexample.) -/
theorem c2_reassembly_any_order (N j0 : Nat) (t0 : ℚ) (rest : List (Nat × ℚ))
    (data : Nat → List Char) (hN : 1 ≤ N)
    (hmem : ∀ p ∈ (j0, t0) :: rest, 1 ≤ p.1 ∧ p.1 ≤ N)
    (htime : ∀ p ∈ (j0, t0) :: rest, p.2 - t0 ≤ 30)
    (hpre : ∀ k, k < ((j0, t0) :: rest).length →
      ((((j0, t0) :: rest).take k).map (fun p => ((p.1 : Nat) : Int))).toFinset ≠
        Finset.Icc 1 (N : Int))
    (hfull : (((j0, t0) :: rest).map (fun p => ((p.1 : Nat) : Int))).toFinset =
      Finset.Icc 1 (N : Int)) :
    feedAll asmInit
        (((j0, t0) :: rest).map (fun p => (p.2, mkChunk p.1 N (data p.1)))) =
      (List.replicate rest.length none ++ [some (concatData N data)], asmInit) :=
  feedAll_covers N j0 t0 rest data hN hmem htime hpre hfull

/-- C2, witness: two chunks of a 2-chunk sequence fed out of order
(2 then 1, five seconds apart) produce nothing and then the
concatenation `data 1 ++ data 2`. -/
theorem c2_reassembly_any_order_witness :
    feedAll asmInit
        (((2, (0 : ℚ)) :: [(1, (5 : ℚ))]).map
          (fun p => (p.2, mkChunk p.1 2 (natToChars p.1)))) =
      (List.replicate 1 none ++ [some (concatData 2 natToChars)], asmInit) :=
  c2_reassembly_any_order 2 2 0 [(1, 5)] natToChars (by decide)
    (by decide)
    (by
      intro p hp
      rcases List.mem_cons.mp hp with h | h
      · subst h; norm_num
      · rcases List.mem_cons.mp h with h | h
        · subst h; norm_num
        · simp at h)
    (by decide) (by decide)

/-- C2, counterexample to the claim as stated: with `N = 1`, feeding
the valid chunk `CHUNK:1/1:a` twice (a duplicate, in order, within the
window) returns the reassembled message `a` on BOTH calls — not
exactly once, and the second call is later than the input completing
the first distinct sequence number. -/
theorem c2_counterexample :
    (feedAll asmInit [((0 : ℚ), mkChunk 1 1 (strL "a")),
        ((0 : ℚ), mkChunk 1 1 (strL "a"))]).1 =
      [some (strL "a"), some (strL "a")] ∧
    ((feedAll asmInit [((0 : ℚ), mkChunk 1 1 (strL "a")),
        ((0 : ℚ), mkChunk 1 1 (strL "a"))]).1.count (some (strL "a"))) ≠ 1 := by
  constructor
  · decide
  · decide

theorem take_range {k n : Nat} (h : k ≤ n) :
    (List.range n).take k = List.range k := by
  apply List.ext_getElem
  · simp [Nat.min_eq_left h]
  · intro i h1 h2
    rw [List.getElem_take]
    simp

theorem toFinset_map_range_succ (k : Nat) :
    ((List.range k).map (fun a => ((a + 1 : Nat) : Int))).toFinset =
      Finset.Icc 1 (k : Int) := by
  ext x
  simp only [List.mem_toFinset, List.mem_map, List.mem_range, Finset.mem_Icc]
  constructor
  · rintro ⟨a, ha, rfl⟩
    push_cast
    omega
  · intro hx
    refine ⟨x.toNat - 1, by omega, by push_cast; omega⟩

theorem enumChunksFrom_eq (total : Nat) :
    ∀ (ps : List (List Char)) (i : Nat),
      enumChunksFrom total i ps =
        (List.range ps.length).map
          (fun k => mkChunk (i + k + 1) total (ps.getD k [])) := by
  intro ps
  induction ps with
  | nil => intro i; simp [enumChunksFrom]
  | cons p ps ih =>
    intro i
    simp only [enumChunksFrom, List.length_cons, List.range_succ_eq_map,
      List.map_cons, List.map_map]
    congr 1
    rw [ih (i + 1)]
    apply List.map_congr_left
    intro a ha
    simp only [Function.comp_apply, Nat.succ_eq_add_one,
      List.getD_eq_getElem?_getD, List.getElem?_cons_succ]
    congr 2
    omega

theorem map_getD_range {α : Type} (l : List α) (d : α) :
    (List.range l.length).map (fun k => l.getD k d) = l := by
  apply List.ext_getElem
  · simp
  · intro i h1 h2
    simp only [List.getElem_map, List.getElem_range]
    exact List.getD_eq_getElem _ _ h2

theorem chunk_response_small {msg : List Char} {max_size : Nat}
    (h : (utf8Encode msg).length ≤ max_size) :
    chunk_response msg max_size = [msg] := by
  unfold chunk_response
  rw [if_pos h]

theorem chunk_response_big {msg : List Char} {max_size : Nat}
    (h : ¬((utf8Encode msg).length ≤ max_size)) :
    chunk_response msg max_size =
      (List.range ((sliceList (max_size - 16) (utf8Encode msg)).map
          utf8DecodeReplace).length).map
        (fun k => mkChunk (k + 1)
          ((sliceList (max_size - 16) (utf8Encode msg)).map
            utf8DecodeReplace).length
          (((sliceList (max_size - 16) (utf8Encode msg)).map
            utf8DecodeReplace).getD k [])) := by
  unfold chunk_response
  rw [if_neg h]
  rw [enumChunksFrom_eq]
  apply List.map_congr_left
  intro a ha
  congr 2
  omega

theorem sliceList_ascii_flatten {sz : Nat} (hsz : 1 ≤ sz) {bs : List Nat}
    (hb : ∀ b ∈ bs, b < 128) :
    ((sliceList sz bs).map utf8DecodeReplace).flatten = bs.map Char.ofNat := by
  have hmapeq : (sliceList sz bs).map utf8DecodeReplace =
      (sliceList sz bs).map (fun s => s.map Char.ofNat) := by
    apply List.map_congr_left
    intro s hs
    exact utf8DecodeReplace_ascii (fun a ha => hb a (sliceList_mem hs a ha))
  rw [hmapeq, ← List.map_flatten, sliceList_flatten hsz]

/-- C1 (corrected, restricted to ASCII messages).  For every message
`m` of ASCII code points and every `max ≥ 32`: when `m`'s UTF-8 length
fits in `max`, `chunk_response` returns `[m]` unsplit (there are no
chunk messages to feed); otherwise feeding all the produced
`CHUNK:i/N:…` messages in order to a fresh assembler yields exactly
`m` on the last chunk and nothing earlier.  (For non-ASCII messages
the byte windows can cut a multi-byte character in two, and the
per-chunk `errors="replace"` decode then destroys it: see the
counterexample.) -/
theorem c1_chunk_roundtrip (m : List Char) (max_size : Nat) (t : ℚ)
    (hmax : 32 ≤ max_size) (hascii : ∀ c ∈ m, c.toNat < 128) :
    ((utf8Encode m).length ≤ max_size → chunk_response m max_size = [m]) ∧
    (max_size < (utf8Encode m).length →
      (feedAll asmInit ((chunk_response m max_size).map (fun c => (t, c)))).1 =
        List.replicate ((chunk_response m max_size).length - 1) none ++
          [some m]) := by
  constructor
  · exact fun h => chunk_response_small h
  · intro hbig
    have hbig' : ¬((utf8Encode m).length ≤ max_size) := by omega
    have hsz : 1 ≤ max_size - 16 := by omega
    have hbytes : ∀ b ∈ utf8Encode m, b < 128 := by
      rw [utf8Encode_ascii hascii]
      intro b hb
      obtain ⟨c, hc, rfl⟩ := List.mem_map.mp hb
      exact hascii c hc
    have hencne : utf8Encode m ≠ [] := by
      intro h
      rw [h] at hbig
      simp at hbig
    have hPne : ((sliceList (max_size - 16) (utf8Encode m)).map
        utf8DecodeReplace) ≠ [] := by
      intro h
      exact sliceList_ne_nil hencne (List.map_eq_nil_iff.mp h)
    have hflat : ((sliceList (max_size - 16) (utf8Encode m)).map
        utf8DecodeReplace).flatten = m := by
      rw [sliceList_ascii_flatten hsz hbytes, utf8Encode_ascii hascii,
        List.map_map]
      have : ∀ c ∈ m, (Char.ofNat ∘ Char.toNat) c = id c := by
        intro c hc
        simp [Char.ofNat_toNat]
      rw [List.map_congr_left this, List.map_id]
    obtain ⟨P', hP⟩ : ∃ n, ((sliceList (max_size - 16) (utf8Encode m)).map
        utf8DecodeReplace).length = n + 1 := by
      refine ⟨((sliceList (max_size - 16) (utf8Encode m)).map
        utf8DecodeReplace).length - 1, ?_⟩
      have : ((sliceList (max_size - 16) (utf8Encode m)).map
          utf8DecodeReplace).length ≠ 0 := by
        simpa [List.length_eq_zero] using hPne
      omega
    set parts := (sliceList (max_size - 16) (utf8Encode m)).map
      utf8DecodeReplace with hparts
    have hconcat : concatData parts.length (fun i => parts.getD (i - 1) []) =
        m := by
      unfold concatData
      rw [show (fun k => (fun i => parts.getD (i - 1) []) (k + 1)) =
          (fun k => parts.getD k []) from rfl]
      rw [map_getD_range parts []]
      exact hflat
    have hJ : (List.range parts.length).map (fun a => (a + 1, t)) =
        (1, t) :: (List.range P').map (fun a => (a + 2, t)) := by
      rw [hP, List.range_succ_eq_map, List.map_cons, List.map_map]
      congr 1
    have htakeJ : ∀ k, k ≤ parts.length →
        ((((List.range parts.length).map (fun a => (a + 1, t))).take k).map
          (fun p => ((p.1 : Nat) : Int))).toFinset = Finset.Icc 1 (k : Int) := by
      intro k hk
      rw [← List.map_take, take_range hk, List.map_map]
      exact toFinset_map_range_succ k
    have hcov := feedAll_covers parts.length 1 t
      ((List.range P').map (fun a => (a + 2, t)))
      (fun i => parts.getD (i - 1) []) (by omega)
      (by
        rw [← hJ]
        intro p hp
        obtain ⟨a, ha, rfl⟩ := List.mem_map.mp hp
        have := List.mem_range.mp ha
        constructor <;> simp <;> omega)
      (by
        rw [← hJ]
        intro p hp
        obtain ⟨a, ha, rfl⟩ := List.mem_map.mp hp
        simp)
      (by
        rw [← hJ]
        intro k hk
        have hklt : k < parts.length := by simpa using hk
        rw [htakeJ k (Nat.le_of_lt hklt)]
        intro hEq
        have hPin : ((parts.length : Nat) : Int) ∈
            Finset.Icc 1 ((parts.length : Nat) : Int) := by
          rw [Finset.mem_Icc]
          refine ⟨?_, le_refl _⟩
          have h1 : 1 ≤ parts.length := by omega
          exact_mod_cast h1
        rw [← hEq, Finset.mem_Icc] at hPin
        have : parts.length ≤ k := by exact_mod_cast hPin.2
        omega)
      (by
        rw [← hJ]
        have := htakeJ parts.length (le_refl _)
        rw [List.take_of_length_le (by simp)] at this
        exact this)
    rw [← hJ] at hcov
    have hresp : (chunk_response m max_size).map (fun c => (t, c)) =
        ((List.range parts.length).map (fun a => (a + 1, t))).map
          (fun p => (p.2, mkChunk p.1 parts.length
            ((fun i => parts.getD (i - 1) []) p.1))) := by
      rw [chunk_response_big hbig', ← hparts, List.map_map, List.map_map]
      apply List.map_congr_left
      intro a ha
      rfl
    rw [hresp, hcov]
    have hlen : (chunk_response m max_size).length = parts.length := by
      rw [chunk_response_big hbig', ← hparts]
      simp
    rw [hlen, hconcat, hP]
    simp

/-- C1, witness: a 40-byte ASCII message split at `max = 32` is
reassembled byte-identically. -/
theorem c1_chunk_roundtrip_witness :
    ((utf8Encode (List.replicate 40 'a')).length ≤ 32 →
      chunk_response (List.replicate 40 'a') 32 = [List.replicate 40 'a']) ∧
    (32 < (utf8Encode (List.replicate 40 'a')).length →
      (feedAll asmInit ((chunk_response (List.replicate 40 'a') 32).map
        (fun c => ((0 : ℚ), c)))).1 =
        List.replicate ((chunk_response (List.replicate 40 'a') 32).length - 1)
          none ++ [some (List.replicate 40 'a')]) :=
  c1_chunk_roundtrip (List.replicate 40 'a') 32 0 (by decide) (by decide)

/-- C1, counterexample to the claim as stated: the 33-byte message of
31 `a`s followed by `é` (U+00E9, two UTF-8 bytes), split with
`max = 32`, comes back with the `é` replaced by two U+FFFD replacement
characters, because the 16-byte windows cut the two-byte character in
half and each half is decoded separately with `errors="replace"`. -/
theorem c1_counterexample :
    (feedAll asmInit ((chunk_response (List.replicate 31 'a' ++ ['é']) 32).map
        (fun c => ((0 : ℚ), c)))).1 =
      [none, none, some (List.replicate 31 'a' ++ [replChar, replChar])] ∧
    List.replicate 31 'a' ++ [replChar, replChar] ≠
      List.replicate 31 'a' ++ ['é'] := by
  constructor
  · decide
  · decide

/-! ## Python string helpers used by the dispatcher -/

/-- The characters Python's default `str.strip()`/`str.split()` treat
as whitespace (ASCII subset; the protocol never carries the exotic
Unicode spaces). -/
def isPySpace (c : Char) : Bool :=
  c == ' ' || c == '\t' || c == '\n' || c == '\r' ||
    c == Char.ofNat 11 || c == Char.ofNat 12

/-- Python `str.strip()`. -/
def pyStrip (s : List Char) : List Char :=
  ((s.dropWhile isPySpace).reverse.dropWhile isPySpace).reverse

/-- Python `str.lower()` (ASCII; command names are ASCII). -/
def pyLower (s : List Char) : List Char := s.map Char.toLower

/-- Python `str.upper()` (ASCII). -/
def pyUpper (s : List Char) : List Char := s.map Char.toUpper

/-- Python `str.split()` with no argument: split on whitespace runs,
no empty fields. -/
def pySplitWs : List Char → List Char → List (List Char)
  | [], acc => if acc = [] then [] else [acc.reverse]
  | c :: cs, acc =>
    if isPySpace c then
      if acc = [] then pySplitWs cs [] else acc.reverse :: pySplitWs cs []
    else pySplitWs cs (c :: acc)

/-- Python `str.isalnum()` (ASCII approximation: the whitelisted column
names are ASCII). -/
def pyIsAlnum (s : List Char) : Bool :=
  !s.isEmpty && s.all Char.isAlphanum

/-! ## Dispatcher table (src/cortex_protocol.py lines 140–164) -/

/-- One tag per handler bound in the `handlers` dict of `_dispatch`. -/
inductive HandlerTag where
  | ping | status | note | activity | search
  | session_start | session_end | get_context
  | project_upsert | computer_reg | people_upsert
  | query | wifi_scan | wifi_config | wifi_status
  deriving DecidableEq

/-- The `handlers` dict literal of `_dispatch`, key by key. -/
def handlers : List (List Char × HandlerTag) :=
  [(strL "ping", .ping), (strL "status", .status), (strL "note", .note),
   (strL "activity", .activity), (strL "search", .search),
   (strL "session_start", .session_start), (strL "session_end", .session_end),
   (strL "get_context", .get_context), (strL "project_upsert", .project_upsert),
   (strL "computer_reg", .computer_reg), (strL "people_upsert", .people_upsert),
   (strL "query", .query), (strL "wifi_scan", .wifi_scan),
   (strL "wifi_config", .wifi_config), (strL "wifi_status", .wifi_status)]

/-- `handlers.get(cmd)`. -/
def dispatch_handler? (cmd : List Char) : Option HandlerTag :=
  (handlers.lookup cmd)

/-- `_dispatch(cmd, payload, context)` up to the table lookup: an
unknown command returns `ERR:<cmd>:unknown command`; a known one runs
its handler (`run` stands for the handler invocation, whose own
behaviour is embedded separately per command). -/
def dispatch_response (cmd : List Char) (run : HandlerTag → List Char) :
    List Char :=
  match dispatch_handler? cmd with
  | none => strL "ERR:" ++ cmd ++ strL ":unknown command"
  | some h => run h

/-- The command-name parsing of `handle_message` (lines 104–117) for a
non-chunk message: `None` unless it starts with `CMD:`; the remainder
splits at the first `:` into a lowercased, stripped name and the
payload. -/
def parseCmd (raw : List Char) : Option (List Char × List Char) :=
  if raw.take 4 = strL "CMD:" then
    let rest := raw.drop 4
    match List.findIdx? (· == ':') rest with
    | none => some (pyLower (pyStrip rest), [])
    | some i => some (pyLower (pyStrip (rest.take i)), rest.drop (i + 1))
  else none

/-- `CortexHTTPHandler._handle_cmd` (src/http_server.py lines 200–204):
the `CMD:` protocol message built from the JSON body's `command` and
optional `payload` before it is handed to the shared dispatcher. -/
def http_build_cmd (command : List Char) (payload? : Option (List Char)) :
    List Char :=
  match payload? with
  | some js => strL "CMD:" ++ command ++ ':' :: js
  | none => strL "CMD:" ++ command

/-! ## Store rows (src/cortex_db.py) -/

/-- A row of the `notes` table (the columns `insert_note` binds). -/
structure NoteRow where
  id : Nat
  content : List Char
  tags : List Char
  project : List Char
  note_type : List Char
  source : List Char
  session_id : Option (List Char)
  deriving DecidableEq

/-- `CortexDB.insert_note` (lines 142–150): appends a row and returns
`lastrowid` (modelled as one past the current row count, matching
AUTOINCREMENT on a table only ever filled by this insert). -/
def insert_note (db : List NoteRow) (content tags project note_type source :
    List Char) (session_id : Option (List Char)) : Nat × List NoteRow :=
  let row_id := db.length + 1
  (row_id, db ++ [{ id := row_id
                    content := content
                    tags := tags
                    project := project
                    note_type := note_type
                    source := source
                    session_id := session_id }])

/-- A row of the `sessions` table. -/
structure SessionRow where
  id : List Char
  ai_platform : List Char
  hostname : List Char
  os_info : List Char
  started_at : List Char
  ended_at : Option (List Char)
  summary : List Char
  projects : List Char
  deriving DecidableEq

/-- `CortexDB.end_session` (lines 196–203): `UPDATE sessions SET
ended_at=datetime('now'), summary=?, projects=? WHERE id=? AND
ended_at IS NULL`, returning whether any row was updated.  `now` is
the text `datetime('now')` produces. -/
def end_session (db : List SessionRow) (now : List Char)
    (session_id summary projects : List Char) : Bool × List SessionRow :=
  let hit := fun (r : SessionRow) => r.id = session_id ∧ r.ended_at = none
  let db2 := db.map (fun r =>
    if hit r then
      { r with ended_at := some now, summary := summary, projects := projects }
    else r)
  (decide (0 < (db.filter (fun r => hit r)).length), db2)

/-- The dispatcher's in-memory state: the active-session cell. -/
structure ProtoState where
  active_session_id : Option (List Char)
  deriving DecidableEq

/-- The payload fields `_cmd_note` reads (`data.get` with defaults);
`source` is NOT among them — the handler hardcodes it. -/
structure NotePayload where
  content : List Char
  tags : List Char
  project : List Char
  noteType : List Char
  deriving DecidableEq

/-- `_cmd_note` (src/cortex_protocol.py lines 183–196): rejects empty
content, otherwise inserts with `source="ble"` and the active-session
cell, and acknowledges with the new row id. -/
def cmd_note (st : ProtoState) (db : List NoteRow) (p : NotePayload) :
    List Char × List NoteRow :=
  if p.content = [] then (strL "ERR:note:missing content field", db)
  else
    let r := insert_note db p.content p.tags p.project p.noteType
      (strL "ble") st.active_session_id
    (strL "ACK:note:" ++ natToChars r.1, r.2)

/-- `_cmd_session_end` (src/cortex_protocol.py lines 237–251).
`payload_session_id` is the payload's `session_id` key when present
(`data.get("session_id", self._active_session_id)`).  Returns
(response, new dispatcher state, new sessions table). -/
def cmd_session_end (st : ProtoState) (db : List SessionRow) (now : List Char)
    (payload_session_id : Option (List Char)) (summary projects : List Char) :
    List Char × ProtoState × List SessionRow :=
  let session_id := match payload_session_id with
    | some s => some s
    | none => st.active_session_id
  match session_id with
  | none => (strL "ERR:session_end:no active session", st, db)
  | some sid =>
    if sid = [] then (strL "ERR:session_end:no active session", st, db)
    else
      let r := end_session db now sid summary projects
      let st2 := if some sid = st.active_session_id then
        { st with active_session_id := none } else st
      if r.1 then (strL "ACK:session_end:" ++ sid, st2, r.2)
      else (strL "ERR:session_end:session not found or already ended", st2, r.2)

/-! ## Ad-hoc query (src/cortex_protocol.py lines 302–339) -/

/-- A result row, as the SQL engine returns it: a total map from
column name to its TEXT rendering. -/
def QRow : Type := List Char → List Char

/-- The table whitelist literal of `_cmd_query` (lines 305–306):
seven tables — `files` is NOT among them. -/
def queryTables : List (List Char) :=
  [strL "notes", strL "activities", strL "searches", strL "sessions",
   strL "projects", strL "computers", strL "people"]

/-- SQLite `LIMIT`: a negative limit means no upper bound (SQLite
documentation, "If the LIMIT expression evaluates to a negative value,
then there is no upper bound on the number of rows returned"). -/
def sqliteLimit {α : Type} (limit : Int) (rows : List α) : List α :=
  if limit < 0 then rows else rows.take limit.toNat

/-- The guard under which `_cmd_query` emits an ORDER BY clause
(lines 327–332): at most two whitespace-separated parts, first part
alphanumeric once underscores are removed, direction (default `DESC`)
one of `ASC`/`DESC`. -/
def orderClauseApplies (p0 : List Char) (prest : List (List Char)) : Bool :=
  ((p0 :: prest).length ≤ 2) &&
  pyIsAlnum (p0.filter (fun c => !(c == '_'))) &&
  (let direction := if prest.isEmpty then strL "DESC" else pyUpper (prest.headD [])
   direction == strL "ASC" || direction == strL "DESC")

/-- `_cmd_query` (lines 302–339).  `tables` is the store's contents per
table name; `sorter` stands for the SQL engine's ORDER BY (a
rearrangement of the filtered rows), applied exactly when the source
emits an ORDER BY clause.  `limit?` is the payload's `limit` key
(absent ⇒ Python default 20); `filters` the payload's filters dict as
(column, value) pairs; non-alphanumeric column names are skipped.  An
all-whitespace `order_by` makes Python's `parts[0]` raise IndexError,
which `_dispatch` turns into an `ERR:query:` response. -/
def cmd_query (tables : List Char → List QRow) (sorter : List QRow → List QRow)
    (table : List Char) (filters : List (List Char × List Char))
    (limit? : Option Int) (order_by : List Char) :
    Except (List Char) (List QRow) :=
  if table ∈ queryTables then
    let limit : Int := min (limit?.getD 20) 100
    let used := filters.filter (fun cv => pyIsAlnum cv.1)
    let rows := (tables table).filter
      (fun r => used.all (fun cv => r cv.1 == cv.2))
    if order_by = [] then .ok (sqliteLimit limit rows)
    else
      match pySplitWs order_by [] with
      | [] => .error (strL "ERR:query:list index out of range")
      | p0 :: prest =>
        let ordered := if orderClauseApplies p0 prest then sorter rows else rows
        .ok (sqliteLimit limit ordered)
  else .error (strL "ERR:query:invalid or missing table")

/-! ## BLE outbound truncation (src/ble_client.py lines 101–108,
src/config.py line 71) -/

/-- `BLE_MAX_MESSAGE_LEN` from config.py. -/
def BLE_MAX_MESSAGE_LEN : Nat := 512

/-- The message `BLEClient.send` actually enqueues: `message[:512]`
when `len(message) > 512` — Python `len` counts characters, not
bytes. -/
def send_enqueued (message : List Char) : List Char :=
  if message.length > BLE_MAX_MESSAGE_LEN then message.take BLE_MAX_MESSAGE_LEN
  else message

/-! ## HTTP auth gate (src/http_server.py lines 102–176) -/

/-- `_check_auth`: `headers.get("Authorization", "")` must start with
`Bearer ` and the rest must equal the token (`secrets.compare_digest`
is equality). -/
def check_auth (authHeader : Option (List Char)) (token : List Char) : Bool :=
  let auth := authHeader.getD []
  if auth.take 7 = strL "Bearer " then auth.drop 7 == token else false

/-- Python `path.rstrip("/")`. -/
def rstripSlash (s : List Char) : List Char :=
  (s.reverse.dropWhile (fun c => c == '/')).reverse

/-- `do_GET` routing down to response status.  `path` is the
percent-decoded URL path; `dbStatus` and `filesStatus` stand for the
disk-dependent outcomes of `_serve_db` and `_route_files_get`. -/
def do_GET (authHeader : Option (List Char)) (token : List Char)
    (path : List Char) (dbStatus : Nat) (filesStatus : List Char → Nat) : Nat :=
  let p := rstripSlash path
  if p = strL "/health" then 200
  else if !check_auth authHeader token then 401
  else if p = strL "/files/db" then dbStatus
  else if p.take 7 = strL "/files/" then filesStatus p
  else 404

/-- `do_POST` routing down to response status; `cmdStatus` and
`uploadStatus` stand for `_handle_cmd` and `_handle_upload`. -/
def do_POST (authHeader : Option (List Char)) (token : List Char)
    (path : List Char) (cmdStatus uploadStatus : Nat) : Nat :=
  if !check_auth authHeader token then 401
  else
    let p := rstripSlash path
    if p = strL "/api/cmd" then cmdStatus
    else if p = strL "/files/uploads" then uploadStatus
    else 404

/-- `do_DELETE` routing down to response status; `deleteStatus` stands
for `_handle_delete`. -/
def do_DELETE (authHeader : Option (List Char)) (token : List Char)
    (path : List Char) (deleteStatus : List Char → Nat) : Nat :=
  if !check_auth authHeader token then 401
  else
    let p := rstripSlash path
    if p.take 7 = strL "/files/" then deleteStatus p
    else 404

/-! ## Claim theorems C3–C10 -/

/-- C3 (code_bug).  The `_cmd_query` whitelist holds only the seven
non-file tables; a query for table `files` — which the spec (§4.1) and
the repository's own test suite (test_cortex.py lines 434–437) expect
to succeed — is rejected with `ERR:query:invalid or missing table`
regardless of the store's contents. -/
theorem c3_query_files_rejected :
    ∀ (tables : List Char → List QRow) (sorter : List QRow → List QRow)
      (filters : List (List Char × List Char)) (limit? : Option Int)
      (order_by : List Char),
      cmd_query tables sorter (strL "files") filters limit? order_by =
        .error (strL "ERR:query:invalid or missing table") := by
  intro tables sorter filters limit? order_by
  unfold cmd_query
  rw [if_neg (by decide)]

/-- C4 (code_bug).  The dispatcher's command table has no entry for
`file_register`, `file_list`, `file_search` or `file_delete`; each of
these commands — which the spec's handler table and the repository's
own test suite (test_cortex.py lines 392–431) expect to return
`ACK:`/`RSP:` — falls through to the unknown-command error, whatever
the handlers themselves would do. -/
theorem c4_file_commands_unknown :
    ∀ run : HandlerTag → List Char,
      dispatch_response (strL "file_register") run =
        strL "ERR:file_register:unknown command" ∧
      dispatch_response (strL "file_list") run =
        strL "ERR:file_list:unknown command" ∧
      dispatch_response (strL "file_search") run =
        strL "ERR:file_search:unknown command" ∧
      dispatch_response (strL "file_delete") run =
        strL "ERR:file_delete:unknown command" := by
  intro run
  exact ⟨rfl, rfl, rfl, rfl⟩

theorem end_session_miss {db : List SessionRow} {now sid summary projects :
    List Char} (h : ∀ r ∈ db, r.id = sid → r.ended_at ≠ none) :
    end_session db now sid summary projects = (false, db) := by
  unfold end_session
  dsimp only
  have hnone : ∀ r ∈ db, ¬(r.id = sid ∧ r.ended_at = none) := by
    rintro r hr ⟨h1, h2⟩
    exact h r hr h1 h2
  congr 1
  · simp only [decide_eq_false_iff_not, not_lt, Nat.le_zero,
      List.length_eq_zero]
    rw [List.filter_eq_nil_iff]
    intro r hr
    simpa using hnone r hr
  · have hid : ∀ r ∈ db,
        (if r.id = sid ∧ r.ended_at = none then
          { r with ended_at := some now
                   summary := summary
                   projects := projects } else r) = id r := by
      intro r hr
      rw [if_neg (hnone r hr)]
      rfl
    rw [List.map_congr_left hid, List.map_id]

/-- C5 (confirmed).  Ending a session whose stored row already has a
non-null `ended_at` (its id being a real, nonempty session id) returns
`ERR:session_end:session not found or already ended`, and the failed
call leaves the sessions table — in particular that row's `ended_at`
and every other column — unchanged. -/
theorem c5_session_end_already_ended (st : ProtoState) (db : List SessionRow)
    (now sid summary projects : List Char) (hsid : sid ≠ [])
    (hended : ∀ r ∈ db, r.id = sid → r.ended_at ≠ none) :
    (cmd_session_end st db now (some sid) summary projects).1 =
      strL "ERR:session_end:session not found or already ended" ∧
    (cmd_session_end st db now (some sid) summary projects).2.2 = db := by
  constructor <;>
    · unfold cmd_session_end
      dsimp only
      rw [if_neg hsid, end_session_miss hended]
      by_cases hc : some sid = st.active_session_id <;> simp [hc]

/-- C5, witness: on a table holding one already-ended session `s1`,
ending `s1` again errors and leaves the table unchanged. -/
theorem c5_session_end_already_ended_witness :
    (cmd_session_end ⟨none⟩
        [⟨strL "s1", [], [], [], strL "t0", some (strL "t1"), [], []⟩]
        (strL "t2") (some (strL "s1")) [] []).1 =
      strL "ERR:session_end:session not found or already ended" ∧
    (cmd_session_end ⟨none⟩
        [⟨strL "s1", [], [], [], strL "t0", some (strL "t1"), [], []⟩]
        (strL "t2") (some (strL "s1")) [] []).2.2 =
      [⟨strL "s1", [], [], [], strL "t0", some (strL "t1"), [], []⟩] :=
  c5_session_end_already_ended ⟨none⟩
    [⟨strL "s1", [], [], [], strL "t0", some (strL "t1"), [], []⟩]
    (strL "t2") (strL "s1") [] [] (by decide) (by decide)

theorem sqliteLimit_length_le {α : Type} {limit : Int} (h0 : 0 ≤ limit)
    (h100 : limit ≤ 100) (rows : List α) :
    (sqliteLimit limit rows).length ≤ 100 := by
  unfold sqliteLimit
  rw [if_neg (not_lt.mpr h0)]
  rw [List.length_take]
  omega

/-- C6 (corrected).  The row limit `_cmd_query` binds is
`min(limit, 100)` with default 20, so whenever the supplied limit is
absent or nonnegative the returned row list has at most 100 entries —
for any store contents, any filters, any `order_by`, and any ORDER BY
rearrangement.  (A negative supplied limit survives the `min` and
SQLite treats a negative LIMIT as unbounded, so the 100-row bound
fails there: see the counterexample.) -/
theorem c6_query_limit_clamped (tables : List Char → List QRow)
    (sorter : List QRow → List QRow) (table : List Char)
    (filters : List (List Char × List Char)) (limit? : Option Int)
    (order_by : List Char) (rows : List QRow)
    (hlim : 0 ≤ limit?.getD 20)
    (hok : cmd_query tables sorter table filters limit? order_by = .ok rows) :
    rows.length ≤ 100 := by
  have h0 : (0 : Int) ≤ min (limit?.getD 20) 100 := le_min hlim (by norm_num)
  have h100 : min (limit?.getD 20) 100 ≤ 100 := min_le_right _ _
  unfold cmd_query at hok
  by_cases ht : table ∈ queryTables
  · rw [if_pos ht] at hok
    dsimp only at hok
    by_cases ho : order_by = []
    · rw [if_pos ho] at hok
      have := Except.ok.inj hok
      rw [← this]
      exact sqliteLimit_length_le h0 h100 _
    · rw [if_neg ho] at hok
      rcases hsplit : pySplitWs order_by [] with _ | ⟨p0, prest⟩
      · rw [hsplit] at hok
        exact absurd hok (by simp)
      · rw [hsplit] at hok
        have := Except.ok.inj hok
        rw [← this]
        exact sqliteLimit_length_le h0 h100 _
  · rw [if_neg ht] at hok
    exact absurd hok (by simp)

/-- C6, witness: a well-formed query with limit 5 over an empty store
returns at most 100 rows. -/
theorem c6_query_limit_clamped_witness : ([] : List QRow).length ≤ 100 :=
  c6_query_limit_clamped (fun _ => []) (fun xs => xs) (strL "notes") []
    (some 5) [] [] (by decide) rfl

/-- C6, counterexample to the claim as stated: a `query` with
`limit = -1` (a negative value the claim says is still clamped) over a
table of 101 rows returns all 101 rows, because `min(-1, 100) = -1`
and SQLite treats a negative LIMIT as "no limit". -/
theorem c6_counterexample :
    ((cmd_query (fun _ => List.replicate 101 (fun _ => ([] : List Char)))
        (fun xs => xs) (strL "notes") [] (some (-1)) []).toOption.map
      List.length) = some 101 ∧ 100 < 101 :=
  ⟨rfl, by norm_num⟩

/-- C7 (corrected).  `BLEClient.send` truncates by Python string
length, i.e. by characters: the enqueued message has at most 512
characters, messages of at most 512 characters are enqueued unchanged,
and for pure-ASCII messages (1 byte per character) the 512-byte bound
of the claim does hold.  For multi-byte messages the byte bound fails:
see the counterexample. -/
theorem c7_send_truncates_by_chars (message : List Char) :
    (send_enqueued message).length ≤ BLE_MAX_MESSAGE_LEN ∧
    (message.length ≤ BLE_MAX_MESSAGE_LEN → send_enqueued message = message) ∧
    ((∀ c ∈ message, c.toNat < 128) →
      (utf8Encode (send_enqueued message)).length ≤ BLE_MAX_MESSAGE_LEN) := by
  have h1 : (send_enqueued message).length ≤ BLE_MAX_MESSAGE_LEN := by
    unfold send_enqueued
    by_cases h : message.length > BLE_MAX_MESSAGE_LEN
    · rw [if_pos h, List.length_take]
      exact min_le_left _ _
    · rw [if_neg h]
      omega
  refine ⟨h1, ?_, ?_⟩
  · intro h
    unfold send_enqueued
    rw [if_neg (by omega)]
  · intro hascii
    have hsub : ∀ c ∈ send_enqueued message, c.toNat < 128 := by
      intro c hc
      unfold send_enqueued at hc
      by_cases h : message.length > BLE_MAX_MESSAGE_LEN
      · rw [if_pos h] at hc
        exact hascii c (List.mem_of_mem_take hc)
      · rw [if_neg h] at hc
        exact hascii c hc
    rw [utf8Encode_ascii hsub, List.length_map]
    exact h1

/-- C7, counterexample to the claim as stated: 257 copies of `é`
(two UTF-8 bytes each) pass the character-length check (257 ≤ 512)
and are enqueued unchanged, yet their UTF-8 encoding is 514 bytes —
over the 512-byte ceiling the claim promises. -/
theorem c7_counterexample :
    send_enqueued (List.replicate 257 'é') = List.replicate 257 'é' ∧
    BLE_MAX_MESSAGE_LEN < (utf8Encode (List.replicate 257 'é')).length := by
  constructor
  · rfl
  · decide

/-- C8 (confirmed).  A request with no `Authorization` header gets 401
from every route except `GET /health` (paths compared after the
handler's trailing-slash normalisation), and `GET /health` succeeds
(200) without credentials — for every token, path, and downstream
file-serving outcome. -/
theorem c8_no_auth_401_except_health (token path : List Char)
    (dbStatus : Nat) (filesStatus : List Char → Nat)
    (cmdStatus uploadStatus : Nat) (deleteStatus : List Char → Nat) :
    do_POST none token path cmdStatus uploadStatus = 401 ∧
    do_DELETE none token path deleteStatus = 401 ∧
    (rstripSlash path ≠ strL "/health" →
      do_GET none token path dbStatus filesStatus = 401) ∧
    (rstripSlash path = strL "/health" →
      do_GET none token path dbStatus filesStatus = 200) := by
  have hauth : check_auth none token = false := by
    unfold check_auth
    rw [if_neg (by decide)]
  refine ⟨?_, ?_, ?_, ?_⟩
  · unfold do_POST
    rw [hauth]
    rfl
  · unfold do_DELETE
    rw [hauth]
    rfl
  · intro hpath
    unfold do_GET
    rw [if_neg hpath, hauth]
    rfl
  · intro hpath
    unfold do_GET
    rw [if_pos hpath]

/-- C9 (confirmed).  Whenever `_cmd_session_end`'s resolved session id
(the payload's `session_id`, or the active-session cell when the key
is absent) equals the active-session cell's (nonempty) content, the
handler clears the cell — whether or not the store update succeeded,
including when it returns the "session not found or already ended"
error. -/
theorem c9_session_end_clears_cell (st : ProtoState) (db : List SessionRow)
    (now : List Char) (payload_session_id : Option (List Char))
    (summary projects sid : List Char)
    (hactive : st.active_session_id = some sid)
    (hresolves : payload_session_id = some sid ∨ payload_session_id = none)
    (hsid : sid ≠ []) :
    (cmd_session_end st db now payload_session_id summary
      projects).2.1.active_session_id = none := by
  unfold cmd_session_end
  rcases hresolves with h | h
  · subst h
    dsimp only
    rw [if_neg hsid, if_pos hactive.symm]
    rw [apply_ite (fun x : List Char × ProtoState × List SessionRow =>
      x.2.1.active_session_id)]
    simp
  · subst h
    dsimp only
    rw [hactive]
    dsimp only
    rw [if_neg hsid, if_pos rfl]
    rw [apply_ite (fun x : List Char × ProtoState × List SessionRow =>
      x.2.1.active_session_id)]
    simp

/-- C9, witness: ending the active session `s1` when its row is
already ended returns the error, yet the active-session cell is
cleared. -/
theorem c9_session_end_clears_cell_witness :
    (cmd_session_end ⟨some (strL "s1")⟩
        [⟨strL "s1", [], [], [], strL "t0", some (strL "t1"), [], []⟩]
        (strL "t2") none [] []).2.1.active_session_id = none :=
  c9_session_end_clears_cell ⟨some (strL "s1")⟩
    [⟨strL "s1", [], [], [], strL "t0", some (strL "t1"), [], []⟩]
    (strL "t2") none [] [] (strL "s1") rfl (Or.inr rfl) (by decide)

/-- C10 (confirmed).  Every row the `note` command adds to the notes
table carries `source = "ble"` (rows already present are the only
other rows afterwards); and the HTTP `POST /api/cmd` transport builds
`CMD:note:<json>`, which the shared dispatcher parses back to the very
same `note` table entry — so notes created over HTTP get source
`"ble"` too. -/
theorem c10_note_source_ble (st : ProtoState) (db : List NoteRow)
    (p : NotePayload) (js : List Char) (r : NoteRow)
    (hr : r ∈ (cmd_note st db p).2) :
    (r ∈ db ∨ r.source = strL "ble") ∧
    parseCmd (http_build_cmd (strL "note") (some js)) =
      some (strL "note", js) ∧
    dispatch_handler? (strL "note") = some HandlerTag.note := by
  refine ⟨?_, ?_, by rfl⟩
  · unfold cmd_note at hr
    by_cases hc : p.content = []
    · rw [if_pos hc] at hr
      exact Or.inl hr
    · rw [if_neg hc] at hr
      dsimp only [insert_note] at hr
      rcases List.mem_append.mp hr with h | h
      · exact Or.inl h
      · right
        rw [List.mem_singleton.mp h]
  · unfold http_build_cmd
    dsimp only
    unfold parseCmd
    rw [List.append_assoc]
    rw [if_pos (List.take_left' (show (strL "CMD:").length = 4 from by decide))]
    rw [List.drop_left' (show (strL "CMD:").length = 4 from by decide)]
    have hsep : List.findIdx? (· == ':') (strL "note" ++ ':' :: js) =
        some (strL "note").length :=
      findIdx?_sep (strL "note") js ':' (by decide)
    dsimp only
    rw [hsep]
    dsimp only
    rw [List.take_left, drop_sep]
    rfl

/-- C10, witness: a concrete note insert over the HTTP-built message
format; the freshly inserted row carries source `"ble"`. -/
theorem c10_note_source_ble_witness :
    ((⟨1, strL "hi", [], [], strL "note", strL "ble", none⟩ : NoteRow) ∈
        ([] : List NoteRow) ∨
      (⟨1, strL "hi", [], [], strL "note", strL "ble", none⟩ :
        NoteRow).source = strL "ble") ∧
    parseCmd (http_build_cmd (strL "note") (some (strL "{}"))) =
      some (strL "note", strL "{}") ∧
    dispatch_handler? (strL "note") = some HandlerTag.note :=
  c10_note_source_ble ⟨none⟩ [] ⟨strL "hi", [], [], strL "note"⟩ (strL "{}")
    ⟨1, strL "hi", [], [], strL "note", strL "ble", none⟩ (by decide)

end Cortex
